import Mathlib

/-!
# Page-metadata enrichment of `website/next.config.js`

A shallow embedding of the metadata pipeline of the documentation site's build
configuration: `getUserData`, `getLastEdited`, `getTimestampAndAuthor`,
`fileToPath` and `mdxConfig.extendFrontMatter.process`.

JavaScript values are a small inductive type; thrown exceptions and rejected
promises are the `error` side of `Except`; the two external lookups (the `git`
process and the GitHub REST client) are oracles of a `World`, and every call to
them is recorded in a call log so that "is never called" can be stated.
-/

namespace NextConfig

/-! ## JavaScript values -/

/-- JavaScript values, as far as this module touches them. -/
inductive JSVal where
  | undefined
  | null
  | bool (b : Bool)
  | num (n : Int)
  | str (s : String)
  | obj (fields : List (String × JSVal))

/-- What a call can throw, or an awaited promise can reject with. -/
inductive JSError where
  | typeError (msg : String)
  | rangeError (msg : String)
  | rejected (reason : JSVal)

/-- JavaScript truthiness (`ToBoolean`), as used by `!str` and `author ? … : …`. -/
def JSVal.truthy : JSVal → Bool
  | .undefined => false
  | .null => false
  | .bool b => b
  | .num n => n != 0
  | .str s => s != ""
  | .obj _ => true

/-- Property read `v.key` as done by a destructuring pattern `const { key } = v`:
throws a `TypeError` on `undefined` and `null`, yields `undefined` for a key
that is not there. None of the keys read in this module is a property of a
primitive. -/
def JSVal.getProp (v : JSVal) (key : String) : Except JSError JSVal :=
  match v with
  | .undefined => .error (.typeError "Cannot destructure property of undefined")
  | .null => .error (.typeError "Cannot destructure property of null")
  | .obj fields => .ok ((fields.lookup key).getD .undefined)
  | _ => .ok .undefined

/-! ## `GIT_COMMIT_TIMESTAMP_AUTHOR_REGEX = /^(\d+), (.+)$/` -/

/-- The four ECMAScript line terminators, which `.` does not match. -/
def isLineTerminator (c : Char) : Bool :=
  c.toNat = 0x0A || c.toNat = 0x0D || c.toNat = 0x2028 || c.toNat = 0x2029

/-- The class `.` of a regular expression without the `s` flag. -/
def isDot (c : Char) : Bool := !isLineTerminator c

/-- Greedy `X+` for a one-character class `X`, by backtracking: after one
character of the class, first try to take more (longest first), and only when
that fails hand the text captured so far and the rest to the continuation. -/
def plusGreedy {α : Type} (p : Char → Bool) (k : List Char → List Char → Option α) :
    List Char → List Char → Option α
  | _, [] => none
  | acc, c :: cs =>
    if p c then
      match plusGreedy p k (acc ++ [c]) cs with
      | some r => some r
      | none => k (acc ++ [c]) cs
    else none

/-- The expression `str.match(/^(\d+), (.+)$/)`, returning the two capture groups
(`temp[1]`, `temp[2]`) when there is a match; the result array then has length
three. Without the `m` flag `^` holds at index 0 only and `$` at the end of the
input only, so the only start index that can match is 0. -/
def regexMatch (s : List Char) : Option (List Char × List Char) :=
  plusGreedy Char.isDigit
    (fun timestamp rest =>
      match rest with
      | ',' :: ' ' :: rest2 =>
        plusGreedy isDot
          (fun author rest3 => if rest3.isEmpty then some (timestamp, author) else none)
          [] rest2
      | _ => none)
    [] s

/-! ## `date-fns`: `fromUnixTime` and `format(…, "MMMM dd, yyyy")` -/

/-- The numeric value of a run of decimal digits: `+timestamp`. For runs whose
value is at most 8 640 000 000 000 the double is exact; larger values convert
to a double that is at least 8 640 000 000 001 (or to `Infinity`), which is all
that `fromUnixTime` looks at. -/
def toNumber (digits : List Char) : Nat :=
  digits.foldl (fun acc c => acc * 10 + (c.toNat - 48)) 0

/-- Largest time value of a `Date`, in milliseconds from the epoch. -/
def maxTimeValue : Int := 8640000000000000

/-- A `Date` object: its time value in milliseconds, or `none` for an
`Invalid Date`. -/
abbrev JSDate := Option Int

/-- The constructor `new Date(ms)`, with its `TimeClip`. -/
def mkDate (ms : Int) : JSDate :=
  if -maxTimeValue ≤ ms ∧ ms ≤ maxTimeValue then some ms else none

/-- The function `fromUnixTime(unixTime)`, which is `toDate(unixTime * 1000)`. -/
def fromUnixTime (unixTime : Nat) : JSDate := mkDate ((unixTime : Int) * 1000)

/-- Year, month (1 to 12) and day of month of a day number counted from
1970-01-01, in the proleptic Gregorian calendar used by `Date`. -/
def civilFromDays (days : Int) : Int × Int × Int :=
  let z := days + 719468
  let era := z / 146097
  let doe := z - era * 146097
  let yoe := (doe - doe / 1460 + doe / 36524 - doe / 146096) / 365
  let doy := doe - (365 * yoe + yoe / 4 - yoe / 100)
  let mp := (5 * doy + 2) / 153
  let d := doy - (153 * mp + 2) / 5 + 1
  let m := if mp < 10 then mp + 3 else mp - 9
  let y := yoe + era * 400 + (if m ≤ 2 then 1 else 0)
  (y, m, d)

/-- The wide month names of the default (en-US) locale. -/
def monthNames : List String :=
  ["January", "February", "March", "April", "May", "June", "July", "August",
   "September", "October", "November", "December"]

/-- The helper `addLeadingZeros(number, targetLength)` on a non-negative number. -/
def addLeadingZeros (number targetLength : Nat) : String :=
  let output := Nat.repr number
  String.mk (List.replicate (targetLength - output.length) '0') ++ output

/-- The call `format(date, "MMMM dd, yyyy")`. It throws `RangeError` on an
invalid date. Otherwise it shifts the instant by the host's time-zone offset
(`timezoneOffset ms` is `getTimezoneOffsetInMilliseconds`, the difference
UTC minus local time in milliseconds) and prints the UTC fields of the shifted
date, that is, the local calendar date. When the shifted instant falls outside
the range of `Date`, its fields are `NaN`. -/
def format (timezoneOffset : Int → Int) (date : JSDate) : Except JSError String :=
  match date with
  | none => .error (.rangeError "Invalid time value")
  | some ms =>
    match mkDate (ms - timezoneOffset ms) with
    | none => .ok " NaN, 0NaN"
    | some utc =>
      let (y, m, d) := civilFromDays (utc / 86400000)
      let year := if y > 0 then y else 1 - y
      .ok (monthNames.getD (m - 1).toNat "" ++ " " ++ addLeadingZeros d.toNat 2 ++ ", "
            ++ addLeadingZeros year.toNat 4)

/-! ## `getTimestampAndAuthor` -/

/-- Format the last edited timestamp and author from git output. -/
def getTimestampAndAuthor (timezoneOffset : Int → Int) (str : String) : Except JSError JSVal :=
  if str = "" then .ok .null
  else
    match regexMatch str.data with
    | none => .ok .null
    | some (timestamp, author) =>
      match format timezoneOffset (fromUnixTime (toNumber timestamp)) with
      | .error e => .error e
      | .ok date => .ok (.obj [("date", .str date), ("author", .str (String.mk author))])

/-! ## `fileToPath` -/

/-- Whether the text `s` starts with the text `pat`: `s.startsWith(pat)`. -/
def startsWith : List Char → List Char → Bool
  | _, [] => true
  | [], _ :: _ => false
  | c :: cs, p :: ps => c == p && startsWith cs ps

/-- The call `str.replace(searchValue, replaceValue)` with a string (not a
regular expression) as `searchValue` and a replacement without `$`: only the
first occurrence of `searchValue`, scanning from the left, is replaced. -/
def replaceFirst (searchValue replaceValue : List Char) : List Char → List Char
  | [] => if searchValue.isEmpty then replaceValue else []
  | c :: cs =>
    if startsWith (c :: cs) searchValue then replaceValue ++ (c :: cs).drop searchValue.length
    else c :: replaceFirst searchValue replaceValue cs

/-- The helper `addLeadingSlash` of `@docusaurus/utils`:
`str.startsWith("/") ? str : "/" + str`. -/
def addLeadingSlash (str : String) : String :=
  if startsWith str.data ['/'] then str else "/" ++ str

/-- The slug of a content file. -/
def fileToPath (str : String) : String :=
  addLeadingSlash (String.mk (replaceFirst ".mdx".data "".data str.data))

/-! ## The outside world -/

/-- A call that leaves the process. -/
inductive Call where
  | execa (file : String) (args : List String)
  | getByUsername (username : JSVal)

/-- The environment of one build: the working directory, the outcome of running
a command with `execa` (its `stdout`, or a rejection), the outcome of
`octokit.users.getByUsername` (the response, or a rejection) and the host's
time-zone offset in milliseconds at a given instant. -/
structure World where
  cwd : String
  execa : String → List String → Except JSError String
  getByUsername : JSVal → Except JSError JSVal
  timezoneOffset : Int → Int

/-- Pure helpers of Node and of `@docusaurus/utils` whose text is of no concern
here: `path.join` on strings, `posixPath` and `normalizeUrl`. -/
structure Lib where
  pathJoin : List String → String
  posixPath : String → String
  normalizeUrl : List String → String

/-- An awaited computation: what it returned or threw, and the external calls
it made, in order. -/
structure Run (α : Type) where
  result : Except JSError α
  calls : List Call

/-- A computation that returns at once. -/
def Run.ret {α : Type} (a : α) : Run α := ⟨.ok a, []⟩

/-- Sequencing: the second computation runs only when the first did not throw. -/
def Run.andThen {α β : Type} (r : Run α) (f : α → Run β) : Run β :=
  match r.result with
  | .error e => ⟨.error e, r.calls⟩
  | .ok a => ⟨(f a).result, r.calls ++ (f a).calls⟩

instance : Monad Run where
  pure := Run.ret
  bind := Run.andThen

/-- A synchronous call that may throw and makes no external call. -/
def Run.ofExcept {α : Type} (e : Except JSError α) : Run α := ⟨e, []⟩

/-- The statement `try { body } catch { handler }`. -/
def tryCatch {α : Type} (body : Run α) (handler : JSError → Run α) : Run α :=
  match body.result with
  | .ok a => ⟨.ok a, body.calls⟩
  | .error e => ⟨(handler e).result, body.calls ++ (handler e).calls⟩

/-- Awaiting `execa(file, args)` and reading `stdout` off the result. -/
def execaStdout (w : World) (file : String) (args : List String) : Run String :=
  ⟨w.execa file args, [Call.execa file args]⟩

/-- Awaiting `octokit.users.getByUsername({ username })`. -/
def octokitGetByUsername (w : World) (username : JSVal) : Run JSVal :=
  ⟨w.getByUsername username, [Call.getByUsername username]⟩

/-! ## The lookups and the enricher -/

/-- The remote profile lookup. -/
def getUserData (w : World) (username : JSVal) : Run JSVal :=
  tryCatch
    (do
      let response ← octokitGetByUsername w username
      let data ← Run.ofExcept (response.getProp "data")
      let avatarUrl ← Run.ofExcept (data.getProp "avatar_url")
      let githubUrl ← Run.ofExcept (data.getProp "html_url")
      let websiteUrl ← Run.ofExcept (data.getProp "blog")
      let bio ← Run.ofExcept (data.getProp "bio")
      let name ← Run.ofExcept (data.getProp "name")
      let twitterUsername ← Run.ofExcept (data.getProp "twitter_username")
      pure (JSVal.obj [("login", username), ("avatarUrl", avatarUrl),
        ("githubUrl", githubUrl), ("websiteUrl", websiteUrl), ("bio", bio),
        ("name", name), ("twitterUsername", twitterUsername)]))
    (fun _ => pure JSVal.undefined)

/-- The base of every edit link. -/
def EDIT_URL : String :=
  "https://github.com/chakra-ui/chakra-ui/edit/develop/website/pages"

/-- The arguments of the `git log` invocation for one file. -/
def gitLogArgs (filePath : String) : List String :=
  ["log", "-1", "--format=%ct, %an", "--follow", "--", filePath]

/-- Gets the last edited timestamp and author from git using `git log`. -/
def getLastEdited (w : World) (filePath : String) : Run JSVal :=
  tryCatch
    (do
      let stdout ← execaStdout w "git" (gitLogArgs filePath)
      Run.ofExcept (getTimestampAndAuthor w.timezoneOffset stdout))
    (fun _ => pure JSVal.undefined)

/-- The helper `getEditUrl` of `@docusaurus/utils`:
`editUrl ? normalizeUrl([editUrl, posixPath(fileRelativePath)]) : undefined`. -/
def getEditUrl (lib : Lib) (fileRelativePath editUrl : String) : JSVal :=
  if editUrl != "" then .str (lib.normalizeUrl [editUrl, lib.posixPath fileRelativePath])
  else .undefined

/-- The argument check of `path.join`, which throws a `TypeError` when an
argument is not a string. -/
def validateString (v : JSVal) : Except JSError String :=
  match v with
  | .str s => .ok s
  | _ => .error (.typeError "The path argument must be of type string")

/-- The record returned by `extendFrontMatter.process`. -/
structure Enriched where
  slug : JSVal
  lastEdited : JSVal
  editUrl : JSVal
  author : JSVal
  tags : JSVal

/-- The per-document transform `mdxConfig.extendFrontMatter.process`. Its first
argument is unused. The file path is `path.join(process.cwd(), "pages", mdxPath)`,
which checks its arguments before it joins them. -/
def process (lib : Lib) (w : World) (frontmatter : JSVal) : Run Enriched := do
  let mdxPath ← Run.ofExcept (frontmatter.getProp "__resourcePath")
  let author ← Run.ofExcept (frontmatter.getProp "author")
  let tags ← Run.ofExcept (frontmatter.getProp "tags")
  let mdxPath ← Run.ofExcept (validateString mdxPath)
  let filePath := lib.pathJoin [w.cwd, "pages", mdxPath]
  let lastEdited ← getLastEdited w filePath
  let editUrl := getEditUrl lib mdxPath EDIT_URL
  let slug := fileToPath mdxPath
  let authorData ← if author.truthy then getUserData w author else pure JSVal.undefined
  pure { slug := .str slug, lastEdited := lastEdited, editUrl := editUrl,
         author := authorData, tags := tags }

/-! ## Specification-side definitions -/

/-- The host runs in UTC. -/
def utc : Int → Int := fun _ => 0

/-- The language of `^(\d+), (.+)$` in words: one or more decimal digits, then a
comma and a single space, then one or more characters none of which is a line
terminator, and nothing else. -/
def MatchesPattern (s : String) : Prop :=
  ∃ ds a : List Char, s.data = ds ++ ',' :: ' ' :: a ∧ ds ≠ [] ∧ (∀ c ∈ ds, c.isDigit = true)
    ∧ a ≠ [] ∧ (∀ c ∈ a, isLineTerminator c = false)

/-- The ECMAScript day number of the first day of year `y` (`DayFromYear`). -/
def dayFromYear (y : Int) : Int :=
  365 * (y - 1970) + (y - 1969) / 4 - (y - 1901) / 100 + (y - 1601) / 400

/-- One in a leap year, zero otherwise (`InLeapYear`). -/
def leapDay (y : Int) : Int := if y % 4 = 0 ∧ (y % 100 ≠ 0 ∨ y % 400 = 0) then 1 else 0

/-- Days of year `y` that lie before the first day of month `m` (1 to 12). -/
def daysBeforeMonth (y m : Int) : Int :=
  if m = 1 then 0 else if m = 2 then 31 else
  leapDay y + (if m = 3 then 59 else if m = 4 then 90
   else if m = 5 then 120 else if m = 6 then 151 else if m = 7 then 181 else if m = 8 then 212
   else if m = 9 then 243 else if m = 10 then 273 else if m = 11 then 304 else 334)

/-- Length of month `m` of year `y`. -/
def daysInMonth (y m : Int) : Int :=
  if m = 2 then 28 + leapDay y
  else if m = 4 ∨ m = 6 ∨ m = 9 ∨ m = 11 then 30 else 31

/-- Day `d` of month `m` of year `y` is the calendar date of day number `z`
(days since 1970-01-01), as ECMAScript's `YearFromTime`, `MonthFromTime` and
`DateFromTime` define it. -/
structure IsCivilDate (z y m d : Int) : Prop where
  month_lo : 1 ≤ m
  month_hi : m ≤ 12
  day_lo : 1 ≤ d
  day_hi : d ≤ daysInMonth y m
  day_number : dayFromYear y + daysBeforeMonth y m + (d - 1) = z

/-- The instant `unixTime` seconds after the epoch, read on the host's clock:
milliseconds since 1970-01-01T00:00 local time. -/
def localTime (timezoneOffset : Int → Int) (unixTime : Nat) : Int :=
  (unixTime : Int) * 1000 - timezoneOffset ((unixTime : Int) * 1000)

/-- Whether the text `pat` occurs somewhere in `s`: `s.includes(pat)`. -/
def includes : List Char → List Char → Bool
  | [], pat => pat.isEmpty
  | c :: cs, pat => startsWith (c :: cs) pat || includes cs pat

/-- A build in which both external lookups fail: `git` is missing and the
profile request is rejected. -/
def offlineWorld : World where
  cwd := "/site"
  execa := fun _ _ => .error (.rejected (.str "spawn git ENOENT"))
  getByUsername := fun _ => .error (.rejected (.str "Not Found"))
  timezoneOffset := utc

/-- A build in which `git` runs but the file has no history (an untracked
file): the command exits with status 0 and prints nothing. -/
def untrackedWorld : World where
  cwd := "/site"
  execa := fun _ _ => .ok ""
  getByUsername := fun _ => .error (.rejected (.str "Not Found"))
  timezoneOffset := utc

/-- A response of the user directory, with more fields than the six that are
read. -/
def sampleProfile : List (String × JSVal) :=
  [("login", .str "jane"), ("id", .num 42),
   ("avatar_url", .str "https://avatars.example/u/42"),
   ("html_url", .str "https://github.com/jane"), ("name", .str "Jane Doe"),
   ("company", .null), ("blog", .str ""), ("bio", .null), ("twitter_username", .null)]

/-- A build in which both external lookups succeed. -/
def onlineWorld : World where
  cwd := "/site"
  execa := fun _ _ => .ok "1609804800, Jane Doe"
  getByUsername := fun _ => .ok (.obj [("status", .num 200), ("data", .obj sampleProfile)])
  timezoneOffset := utc

/-- Library helpers that join their arguments with a slash. -/
def slashLib : Lib where
  pathJoin := fun parts => "/".intercalate parts
  posixPath := fun s => s
  normalizeUrl := fun parts => "/".intercalate parts

/-- The front matter of a page that names its author. -/
def sampleFields : List (String × JSVal) :=
  [("title", .str "Introduction"), ("__resourcePath", .str "docs/intro.mdx"),
   ("author", .str "JANE"), ("tags", .obj [("0", .str "guide")])]

/-- The front matter of a page that names its author, as a value. -/
def sampleFrontMatter : JSVal := .obj sampleFields

/-- The front matter of a page without an author. -/
def anonymousFields : List (String × JSVal) :=
  [("title", .str "Introduction"), ("__resourcePath", .str "docs/intro.mdx")]

/-- The front matter of a page without an author, as a value. -/
def anonymousFrontMatter : JSVal := .obj anonymousFields

/-! ## The regular expression -/

theorem plusGreedy_sound {α : Type} (p : Char → Bool) (k : List Char → List Char → Option α) :
    ∀ (s acc : List Char) (r : α), plusGreedy p k acc s = some r →
      ∃ x rest, x ≠ [] ∧ (∀ c ∈ x, p c = true) ∧ s = x ++ rest ∧ k (acc ++ x) rest = some r := by
  intro s
  induction s with
  | nil => intro acc r h; simp [plusGreedy] at h
  | cons c cs ih =>
    intro acc r h
    unfold plusGreedy at h
    by_cases hp : p c = true
    · simp only [hp, if_true] at h
      cases hrec : plusGreedy p k (acc ++ [c]) cs with
      | none =>
        rw [hrec] at h
        exact ⟨[c], cs, by simp, by simpa using hp, by simp, h⟩
      | some r2 =>
        rw [hrec] at h
        obtain ⟨x, rest, hx, hall, hs, hk⟩ := ih (acc ++ [c]) r2 hrec
        refine ⟨c :: x, rest, by simp, ?_, by simp [hs], ?_⟩
        · intro d hd
          rcases List.mem_cons.mp hd with rfl | hd
          · exact hp
          · exact hall d hd
        · have : r2 = r := by simpa using h
          subst this
          simpa using hk
    · simp [hp] at h

theorem plusGreedy_complete {α : Type} (p : Char → Bool) (k : List Char → List Char → Option α) :
    ∀ (x acc rest : List Char) (r : α), x ≠ [] → (∀ c ∈ x, p c = true) →
      (∀ c ∈ rest.head?, p c = false) → k (acc ++ x) rest = some r →
      plusGreedy p k acc (x ++ rest) = some r := by
  intro x
  induction x with
  | nil => intro acc rest r hx; exact absurd rfl hx
  | cons c x ih =>
    intro acc rest r _ hall hrest hk
    have hc : p c = true := hall c (List.mem_cons_self _ _)
    by_cases hx : x = []
    · subst hx
      have hnone : plusGreedy p k (acc ++ [c]) rest = none := by
        cases rest with
        | nil => simp [plusGreedy]
        | cons d ds =>
          have : p d = false := hrest d (by simp)
          simp [plusGreedy, this]
      simp only [List.cons_append, List.nil_append]
      unfold plusGreedy
      simp only [hc, if_true, hnone]
      exact hk
    · have hrec : plusGreedy p k (acc ++ [c]) (x ++ rest) = some r := by
        apply ih (acc ++ [c]) rest r hx (fun d hd => hall d (List.mem_cons_of_mem _ hd)) hrest
        simpa using hk
      simp only [List.cons_append]
      unfold plusGreedy
      simp only [hc, if_true, hrec]

theorem regexMatch_sound (s ts au : List Char) (h : regexMatch s = some (ts, au)) :
    s = ts ++ ',' :: ' ' :: au ∧ ts ≠ [] ∧ (∀ c ∈ ts, c.isDigit = true)
      ∧ au ≠ [] ∧ (∀ c ∈ au, isLineTerminator c = false) := by
  unfold regexMatch at h
  obtain ⟨x, rest, hx, hdig, hs, hk⟩ := plusGreedy_sound _ _ s [] (ts, au) h
  simp only [List.nil_append] at hk
  split at hk
  · rename_i rest2
    obtain ⟨y, rest3, hy, hdot, hs2, hk2⟩ := plusGreedy_sound _ _ rest2 [] (ts, au) hk
    simp only [List.nil_append] at hk2
    cases rest3 with
    | cons d ds => simp at hk2
    | nil =>
      simp only [List.isEmpty_nil, if_true, Option.some.injEq, Prod.mk.injEq] at hk2
      obtain ⟨rfl, rfl⟩ := hk2
      refine ⟨by simp [hs, hs2], hx, hdig, hy, ?_⟩
      intro c hc
      have := hdot c hc
      simpa [isDot] using this
  · simp at hk

theorem regexMatch_complete (ds a : List Char) (hds : ds ≠ [])
    (hdig : ∀ c ∈ ds, c.isDigit = true) (ha : a ≠ [])
    (hdot : ∀ c ∈ a, isLineTerminator c = false) :
    regexMatch (ds ++ ',' :: ' ' :: a) = some (ds, a) := by
  unfold regexMatch
  apply plusGreedy_complete _ _ ds [] _ _ hds hdig
  · intro c hc
    simp only [List.head?_cons, Option.mem_def, Option.some.injEq] at hc
    subst hc
    decide
  · simp only [List.nil_append]
    have := plusGreedy_complete isDot
      (fun author rest3 => if rest3.isEmpty then some (ds, author) else none) a [] [] (ds, a) ha
      (fun c hc => by simp [isDot, hdot c hc]) (by simp) (by simp)
    simpa using this

/-! ## The calendar -/

theorem yearOfEra_spec (doe : Int) (h0 : 0 ≤ doe) (h1 : doe ≤ 146096) :
    let yoe := (doe - doe / 1460 + doe / 36524 - doe / 146096) / 365
    let doy := doe - (365 * yoe + yoe / 4 - yoe / 100)
    0 ≤ yoe ∧ yoe ≤ 399 ∧ 0 ≤ doy ∧ doy ≤ 365 ∧
      (doy = 365 → (yoe + 1) % 4 = 0 ∧ ((yoe + 1) % 100 ≠ 0 ∨ (yoe + 1) % 400 = 0)) := by
  intro yoe doy
  have hq2 : doe / 36524 = 0 ∨ doe / 36524 = 1 ∨ doe / 36524 = 2 ∨ doe / 36524 = 3
      ∨ doe / 36524 = 4 := by omega
  have hc : yoe / 100 = 0 ∨ yoe / 100 = 1 ∨ yoe / 100 = 2 ∨ yoe / 100 = 3 := by
    simp only [yoe]; omega
  have hr : yoe % 4 = 0 ∨ yoe % 4 = 1 ∨ yoe % 4 = 2 ∨ yoe % 4 = 3 := by omega
  have hb3 : doe / 146096 = 0 ∨ doe / 146096 = 1 := by omega
  simp only [doy, yoe] at hc hr ⊢
  rcases hq2 with h | h | h | h | h <;> rcases hc with h' | h' | h' | h' <;>
    rcases hr with h'' | h'' | h'' | h'' <;> rcases hb3 with h3 | h3 <;> omega

theorem dayFromYear_add_era (a era : Int) :
    dayFromYear (a + era * 400) = dayFromYear a + era * 146097 := by
  simp only [dayFromYear]; omega

theorem leapDay_add_era (a era : Int) : leapDay (a + era * 400) = leapDay a := by
  simp only [leapDay]
  have h4 : (a + era * 400) % 4 = a % 4 := by omega
  have h100 : (a + era * 400) % 100 = a % 100 := by omega
  have h400 : (a + era * 400) % 400 = a % 400 := by omega
  rw [h4, h100, h400]

theorem monthDay_spec (yoe doy mp : Int) (hy0 : 0 ≤ yoe) (hy1 : yoe ≤ 399) (hd0 : 0 ≤ doy)
    (hd1 : doy ≤ 365)
    (hleap : doy = 365 → (yoe + 1) % 4 = 0 ∧ ((yoe + 1) % 100 ≠ 0 ∨ (yoe + 1) % 400 = 0))
    (hmp : (5 * doy + 2) / 153 = mp) :
    let d := doy - (153 * mp + 2) / 5 + 1
    let m := if mp < 10 then mp + 3 else mp - 9
    let y := yoe + (if m ≤ 2 then 1 else 0)
    1 ≤ m ∧ m ≤ 12 ∧ 1 ≤ d ∧ d ≤ daysInMonth y m ∧
      dayFromYear y + daysBeforeMonth y m + (d - 1)
        = doy + (365 * yoe + yoe / 4 - yoe / 100) - 719468 := by
  have hmpr : mp = 0 ∨ mp = 1 ∨ mp = 2 ∨ mp = 3 ∨ mp = 4 ∨ mp = 5 ∨ mp = 6 ∨ mp = 7 ∨ mp = 8
      ∨ mp = 9 ∨ mp = 10 ∨ mp = 11 := by omega
  have hc : yoe / 100 = 0 ∨ yoe / 100 = 1 ∨ yoe / 100 = 2 ∨ yoe / 100 = 3 := by omega
  simp only [daysInMonth, dayFromYear, daysBeforeMonth, leapDay]
  rcases hmpr with h | h | h | h | h | h | h | h | h | h | h | h <;> subst h <;>
    simp <;> (try split_ifs) <;> omega

theorem civilFromDays_spec (z : Int) :
    IsCivilDate z (civilFromDays z).1 (civilFromDays z).2.1 (civilFromDays z).2.2 := by
  have hdoe0 : 0 ≤ (z + 719468) - (z + 719468) / 146097 * 146097 := by omega
  have hdoe1 : (z + 719468) - (z + 719468) / 146097 * 146097 ≤ 146096 := by omega
  simp only [civilFromDays]
  generalize (z + 719468) / 146097 = era at *
  generalize hdoe : z + 719468 - era * 146097 = doe at *
  have hz : z = doe + era * 146097 - 719468 := by omega
  subst hz
  clear hdoe
  obtain ⟨hy0, hy1, hd0, hd1, hleap⟩ := yearOfEra_spec doe hdoe0 hdoe1
  generalize (doe - doe / 1460 + doe / 36524 - doe / 146096) / 365 = yoe at *
  generalize hdoy : doe - (365 * yoe + yoe / 4 - yoe / 100) = doy at *
  have hdoe : doe = doy + (365 * yoe + yoe / 4 - yoe / 100) := by omega
  subst hdoe
  clear hdoy hdoe0 hdoe1
  obtain ⟨hm0, hm1, hday0, hday1, hnum⟩ := monthDay_spec yoe doy _ hy0 hy1 hd0 hd1 hleap rfl
  generalize (5 * doy + 2) / 153 = mp at *
  have hyear : yoe + era * 400 + (if (if mp < 10 then mp + 3 else mp - 9) ≤ 2 then 1 else 0)
      = (yoe + (if (if mp < 10 then mp + 3 else mp - 9) ≤ 2 then 1 else 0)) + era * 400 := by
    omega
  rw [hyear]
  refine ⟨hm0, hm1, hday0, ?_, ?_⟩
  · simp only [daysInMonth, leapDay_add_era] at hday1 ⊢
    exact hday1
  · simp only [daysBeforeMonth, dayFromYear_add_era, leapDay_add_era] at hnum ⊢
    omega

/-! ## `getTimestampAndAuthor` -/

/-- C3. For every string that is empty or is not of the form digits, comma,
space, one or more non-newline characters, `getTimestampAndAuthor` returns
`null`. -/
theorem getTimestampAndAuthor_null_of_no_match (tz : Int → Int) (s : String)
    (h : s = "" ∨ ¬ MatchesPattern s) : getTimestampAndAuthor tz s = .ok .null := by
  unfold getTimestampAndAuthor
  by_cases he : s = ""
  · simp [he]
  · simp only [he, if_false]
    have hn : ¬ MatchesPattern s := by
      rcases h with h | h
      · exact absurd h he
      · exact h
    cases hm : regexMatch s.data with
    | none => rfl
    | some r =>
      obtain ⟨ts, au⟩ := r
      exact absurd ⟨ts, au, regexMatch_sound s.data ts au hm⟩ hn

/-- Witness for C3 at the two inputs the specification names, `"not-a-match"`
and the empty string. -/
theorem getTimestampAndAuthor_null_of_no_match_witness :
    (¬ MatchesPattern "not-a-match" ∧ getTimestampAndAuthor utc "not-a-match" = .ok .null)
      ∧ getTimestampAndAuthor utc "" = .ok .null := by
  have hn : ¬ MatchesPattern "not-a-match" := by
    rintro ⟨ds, a, hs, hds, hdig, -, -⟩
    cases ds with
    | nil => exact hds rfl
    | cons c cs =>
      have hc : c = 'n' := by
        have := congrArg List.head? hs
        simpa using this.symm
      have := hdig c (List.mem_cons_self _ _)
      rw [hc] at this
      exact absurd this (by decide)
  exact ⟨⟨hn, getTimestampAndAuthor_null_of_no_match utc "not-a-match" (Or.inr hn)⟩,
    getTimestampAndAuthor_null_of_no_match utc "" (Or.inl rfl)⟩

theorem string_mk_ne_empty (l : List Char) (h : l ≠ []) : String.mk l ≠ "" := by
  intro hs
  apply h
  have := congrArg String.data hs
  simpa using this

theorem fromUnixTime_of_le (n : Nat) (h : n ≤ 8640000000000) :
    fromUnixTime n = some ((n : Int) * 1000) := by
  unfold fromUnixTime mkDate maxTimeValue
  rw [if_pos]
  omega

theorem fromUnixTime_of_gt (n : Nat) (h : 8640000000000 < n) : fromUnixTime n = none := by
  unfold fromUnixTime mkDate maxTimeValue
  rw [if_neg]
  omega

theorem fromUnixTime_eq_none_iff (n : Nat) : fromUnixTime n = none ↔ 8640000000000 < n := by
  constructor
  · intro h
    by_contra hle
    rw [fromUnixTime_of_le n (by omega)] at h
    cases h
  · exact fromUnixTime_of_gt n

theorem format_error_iff (tz : Int → Int) (date : JSDate) (e : JSError) :
    format tz date = .error e ↔ date = none ∧ e = .rangeError "Invalid time value" := by
  unfold format
  cases date with
  | none => simp; exact eq_comm
  | some ms =>
    simp only [reduceCtorEq, false_and, iff_false]
    cases mkDate (ms - tz ms) <;> simp

theorem getTimestampAndAuthor_of_regexMatch (tz : Int → Int) (s : String) (ts au : List Char)
    (h : regexMatch s.data = some (ts, au)) :
    getTimestampAndAuthor tz s =
      match format tz (fromUnixTime (toNumber ts)) with
      | .error e => .error e
      | .ok date => .ok (.obj [("date", .str date), ("author", .str (String.mk au))]) := by
  have hne : s ≠ "" := by
    rintro rfl
    simp [regexMatch, plusGreedy] at h
  unfold getTimestampAndAuthor
  simp only [hne, if_false, h]

/-- C10. For every string, `getTimestampAndAuthor` returns `null`, returns a
`{date, author}` record, or throws `RangeError: Invalid time value`; it throws
exactly when the string matches the pattern and the value of its digit run
exceeds 8 640 000 000 000, the largest Unix time a `Date` holds; and
`getLastEdited`, which calls it inside its `try`, never throws. -/
theorem getTimestampAndAuthor_outcomes (w : World) (filePath : String) (s : String) :
    (getTimestampAndAuthor w.timezoneOffset s = .ok .null
      ∨ (∃ date author, getTimestampAndAuthor w.timezoneOffset s
            = .ok (.obj [("date", .str date), ("author", .str author)]))
      ∨ getTimestampAndAuthor w.timezoneOffset s = .error (.rangeError "Invalid time value"))
    ∧ (getTimestampAndAuthor w.timezoneOffset s = .error (.rangeError "Invalid time value")
        ↔ ∃ ds a : List Char, s.data = ds ++ ',' :: ' ' :: a ∧ ds ≠ []
            ∧ (∀ c ∈ ds, c.isDigit = true) ∧ a ≠ [] ∧ (∀ c ∈ a, isLineTerminator c = false)
            ∧ 8640000000000 < toNumber ds)
    ∧ ∃ v, (getLastEdited w filePath).result = .ok v := by
  refine ⟨?_, ?_, ?_⟩
  · cases hm : regexMatch s.data with
    | none =>
      left
      unfold getTimestampAndAuthor
      split_ifs <;> simp [hm]
    | some r =>
      obtain ⟨ts, au⟩ := r
      rw [getTimestampAndAuthor_of_regexMatch _ s ts au hm]
      cases hf : format w.timezoneOffset (fromUnixTime (toNumber ts)) with
      | error e =>
        right; right
        rw [(format_error_iff _ _ _).mp hf |>.2]
      | ok date => right; left; exact ⟨date, String.mk au, rfl⟩
  · constructor
    · intro h
      cases hm : regexMatch s.data with
      | none =>
        unfold getTimestampAndAuthor at h
        split_ifs at h
        simp [hm] at h
      | some r =>
        obtain ⟨ts, au⟩ := r
        rw [getTimestampAndAuthor_of_regexMatch _ s ts au hm] at h
        obtain ⟨h1, h2, h3, h4, h5⟩ := regexMatch_sound s.data ts au hm
        refine ⟨ts, au, h1, h2, h3, h4, h5, ?_⟩
        cases hf : format w.timezoneOffset (fromUnixTime (toNumber ts)) with
        | error e => exact (fromUnixTime_eq_none_iff _).mp ((format_error_iff _ _ _).mp hf).1
        | ok date => rw [hf] at h; cases h
    · rintro ⟨ds, a, h1, h2, h3, h4, h5, h6⟩
      have hm : regexMatch s.data = some (ds, a) := by
        rw [h1]; exact regexMatch_complete ds a h2 h3 h4 h5
      rw [getTimestampAndAuthor_of_regexMatch _ s ds a hm, fromUnixTime_of_gt _ h6]
      rfl
  · unfold getLastEdited tryCatch
    split
    · exact ⟨_, rfl⟩
    · exact ⟨_, rfl⟩


theorem addLeadingZeros_length (n w : Nat) :
    (addLeadingZeros n w).length = (w - (Nat.repr n).length) + (Nat.repr n).length := by
  simp only [addLeadingZeros, String.length, String.data_append, List.length_append,
    List.length_replicate]

theorem leapDay_bounds (y : Int) : 0 ≤ leapDay y ∧ leapDay y ≤ 1 := by
  simp only [leapDay]
  split_ifs <;> omega

theorem daysBeforeMonth_bounds (y m : Int) (h0 : 1 ≤ m) (h1 : m ≤ 12) :
    0 ≤ daysBeforeMonth y m ∧ daysBeforeMonth y m ≤ 335 := by
  have hl := leapDay_bounds y
  interval_cases m <;> simp [daysBeforeMonth] <;> omega

theorem daysInMonth_le (y m : Int) (h0 : 1 ≤ m) (h1 : m ≤ 12) : daysInMonth y m ≤ 31 := by
  have hl := leapDay_bounds y
  interval_cases m <;> simp [daysInMonth]
  omega

theorem monthNames_getD (k : Nat) (hk : k < 12) : monthNames[k]? = some (monthNames.getD k "") := by
  interval_cases k <;> rfl

/-- C4 (amended). For every string `<digits>, <author>` matching the pattern
whose timestamp is at most 8 640 000 000 000 and whose instant, read on the
host's clock, is a representable date not before 1969-12-31,
`getTimestampAndAuthor` returns the record whose `author` is the text after the
first comma-space, verbatim, and whose `date` is the host-local calendar date
of that instant: full English month name, a space, the day in exactly two
digits, a comma and a space, and the year in decimal padded to at least four
digits, exactly four before local year 10000. -/
theorem getTimestampAndAuthor_of_match (tz : Int → Int) (ds a : List Char)
    (hds : ds ≠ []) (hdig : ∀ c ∈ ds, c.isDigit = true)
    (ha : a ≠ []) (hdot : ∀ c ∈ a, isLineTerminator c = false)
    (hvalid : toNumber ds ≤ 8640000000000)
    (hlo : -86400000 ≤ localTime tz (toNumber ds))
    (hhi : localTime tz (toNumber ds) ≤ maxTimeValue) :
    ∃ (y m d : Nat) (month : String),
      IsCivilDate (localTime tz (toNumber ds) / 86400000) y m d
      ∧ monthNames[m - 1]? = some month
      ∧ getTimestampAndAuthor tz (String.mk (ds ++ ',' :: ' ' :: a))
          = .ok (.obj [("date", .str (month ++ " " ++ addLeadingZeros d 2 ++ ", "
                          ++ addLeadingZeros y 4)),
                       ("author", .str (String.mk a))])
      ∧ (addLeadingZeros d 2).length = 2
      ∧ 4 ≤ (addLeadingZeros y 4).length
      ∧ (localTime tz (toNumber ds) < 253402300800000 → (addLeadingZeros y 4).length = 4) := by
  generalize hz : localTime tz (toNumber ds) / 86400000 = z
  have hz0 : -1 ≤ z := by omega
  have hciv := civilFromDays_spec z
  generalize hy : (civilFromDays z).1 = y at hciv
  generalize hm : (civilFromDays z).2.1 = m at hciv
  generalize hd : (civilFromDays z).2.2 = d at hciv
  have hcz : civilFromDays z = (y, m, d) := by rw [← hy, ← hm, ← hd]
  obtain ⟨hm0, hm1, hd0, hd1, hnum⟩ := hciv
  have hdm := daysInMonth_le y m hm0 hm1
  have hbm := daysBeforeMonth_bounds y m hm0 hm1
  have hy0 : 1969 ≤ y := by
    simp only [dayFromYear] at hnum
    omega
  refine ⟨y.toNat, m.toNat, d.toNat, monthNames.getD (m.toNat - 1) "", ?_, ?_, ?_, ?_, ?_, ?_⟩
  · rw [Int.toNat_of_nonneg (by omega), Int.toNat_of_nonneg (by omega),
      Int.toNat_of_nonneg (by omega)]
    exact ⟨hm0, hm1, hd0, hd1, hnum⟩
  · exact monthNames_getD _ (by omega)
  · have hmatch : regexMatch (String.mk (ds ++ ',' :: ' ' :: a)).data = some (ds, a) :=
      regexMatch_complete ds a hds hdig ha hdot
    rw [getTimestampAndAuthor_of_regexMatch tz _ ds a hmatch, fromUnixTime_of_le _ hvalid]
    have hmk : mkDate ((toNumber ds : Int) * 1000 - tz ((toNumber ds : Int) * 1000))
        = some (localTime tz (toNumber ds)) := by
      unfold mkDate
      rw [if_pos]
      · rfl
      · unfold localTime at hlo hhi
        unfold maxTimeValue at hhi ⊢
        omega
    have hm1' : (m - 1).toNat = m.toNat - 1 := by omega
    simp only [format, hmk, hz, hcz, hm1']
    rw [if_pos (by omega)]
  · rw [addLeadingZeros_length]
    have := Nat.repr_length d.toNat 2 (by omega) (by omega)
    omega
  · rw [addLeadingZeros_length]
    omega
  · intro hlt
    rw [addLeadingZeros_length]
    have hy1 : y ≤ 9999 := by
      simp only [dayFromYear] at hnum
      omega
    have := Nat.repr_length y.toNat 4 (by omega) (by omega)
    omega

/-- Witness for C4: the specification's example on a host that runs in UTC. -/
theorem getTimestampAndAuthor_of_match_witness :
    (∃ (y m d : Nat) (month : String),
      IsCivilDate (localTime utc (toNumber "1609804800".data) / 86400000) y m d
      ∧ monthNames[m - 1]? = some month
      ∧ getTimestampAndAuthor utc (String.mk ("1609804800".data ++ ',' :: ' ' :: "Jane Doe".data))
          = .ok (.obj [("date", .str (month ++ " " ++ addLeadingZeros d 2 ++ ", "
                          ++ addLeadingZeros y 4)),
                       ("author", .str (String.mk "Jane Doe".data))])
      ∧ (addLeadingZeros d 2).length = 2
      ∧ 4 ≤ (addLeadingZeros y 4).length
      ∧ (localTime utc (toNumber "1609804800".data) < 253402300800000
          → (addLeadingZeros y 4).length = 4))
    ∧ getTimestampAndAuthor utc "1609804800, Jane Doe"
        = .ok (.obj [("date", .str "January 05, 2021"), ("author", .str "Jane Doe")]) :=
  ⟨getTimestampAndAuthor_of_match utc "1609804800".data "Jane Doe".data (by decide) (by decide)
    (by decide) (by decide) (by decide) (by decide) (by decide), rfl⟩

/-- C4 fails as stated: in UTC the timestamp 253402300800 is printed with a
five-digit year; a digit run beyond the range of `Date` makes the function
throw; and on a host five hours west of UTC the specification's own example is
dated January 04. All three inputs match the pattern. -/
theorem getTimestampAndAuthor_of_match_counterexample :
    getTimestampAndAuthor utc "253402300800, x"
        = .ok (.obj [("date", .str "January 01, 10000"), ("author", .str "x")])
    ∧ getTimestampAndAuthor utc "99999999999999999999, x"
        = .error (.rangeError "Invalid time value")
    ∧ getTimestampAndAuthor (fun _ => 18000000) "1609804800, Jane Doe"
        = .ok (.obj [("date", .str "January 04, 2021"), ("author", .str "Jane Doe")])
    ∧ MatchesPattern "253402300800, x" ∧ MatchesPattern "99999999999999999999, x"
    ∧ MatchesPattern "1609804800, Jane Doe" :=
  ⟨rfl, rfl, rfl,
    ⟨"253402300800".data, "x".data, rfl, by decide, by decide, by decide, by decide⟩,
    ⟨"99999999999999999999".data, "x".data, rfl, by decide, by decide, by decide, by decide⟩,
    ⟨"1609804800".data, "Jane Doe".data, rfl, by decide, by decide, by decide, by decide⟩⟩

/-- C10 fails as stated: the input `"99999999999999999999, x"` matches the
pattern and makes `getTimestampAndAuthor` throw, whatever the host's zone. -/
theorem getTimestampAndAuthor_outcomes_counterexample :
    MatchesPattern "99999999999999999999, x"
    ∧ getTimestampAndAuthor utc "99999999999999999999, x"
        = .error (.rangeError "Invalid time value")
    ∧ getTimestampAndAuthor (fun _ => -3600000) "99999999999999999999, x"
        = .error (.rangeError "Invalid time value") :=
  ⟨⟨"99999999999999999999".data, "x".data, rfl, by decide, by decide, by decide, by decide⟩,
    rfl, rfl⟩

/-! ## `fileToPath` -/

theorem startsWith_iff (s pat : List Char) : startsWith s pat = true ↔ ∃ b, s = pat ++ b := by
  induction pat generalizing s with
  | nil => simp [startsWith]
  | cons p ps ih =>
    cases s with
    | nil => simp [startsWith]
    | cons c cs =>
      simp only [startsWith, Bool.and_eq_true, beq_iff_eq, ih, List.cons_append, List.cons.injEq]
      constructor
      · rintro ⟨rfl, b, rfl⟩; exact ⟨b, rfl, rfl⟩
      · rintro ⟨b, rfl, rfl⟩; exact ⟨rfl, b, rfl⟩

theorem replaceFirst_of_not_includes (pat rep s : List Char) (h : includes s pat = false) :
    replaceFirst pat rep s = s := by
  induction s with
  | nil =>
    simp only [includes] at h
    simp [replaceFirst, h]
  | cons c cs ih =>
    simp only [includes, Bool.or_eq_false_iff] at h
    simp [replaceFirst, h.1, ih h.2]

theorem replaceFirst_length (pat s : List Char) (h : includes s pat = true) :
    (replaceFirst pat [] s).length + pat.length = s.length := by
  induction s with
  | nil =>
    simp only [includes, List.isEmpty_iff] at h
    simp [replaceFirst, h]
  | cons c cs ih =>
    by_cases hs : startsWith (c :: cs) pat = true
    · obtain ⟨b, hb⟩ := (startsWith_iff _ _).mp hs
      simp only [replaceFirst, hs, if_true, List.nil_append]
      rw [hb]
      simp
      omega
    · have hs2 : startsWith (c :: cs) pat = false := by simpa using hs
      simp only [includes, hs2, Bool.false_or] at h
      have := ih h
      simp only [replaceFirst, hs2, Bool.false_eq_true, if_false, List.length_cons]
      omega

theorem mdx_data : ".mdx".data = ['.', 'm', 'd', 'x'] := rfl

theorem replaceFirst_mdx_append (q : List Char) (h : includes q ['.', 'm', 'd', 'x'] = false) :
    replaceFirst ['.', 'm', 'd', 'x'] [] (q ++ ['.', 'm', 'd', 'x']) = q := by
  induction q with
  | nil => rfl
  | cons x q ih =>
    simp only [includes, Bool.or_eq_false_iff] at h
    have hno : startsWith (x :: (q ++ ['.', 'm', 'd', 'x'])) ['.', 'm', 'd', 'x'] = false := by
      match q, h with
      | [], _ => simp [startsWith]
      | [y], _ => simp [startsWith]
      | [y, z], _ => simp [startsWith]
      | y :: z :: w :: q2, h =>
        have := h.1
        simpa [startsWith] using this
    have hrec := ih h.2
    rw [List.cons_append]
    unfold replaceFirst
    rw [hno, hrec]
    simp

/-- The slug with the leading slash, on lists of characters. -/
theorem addLeadingSlash_data (s : String) :
    (addLeadingSlash s).data = if startsWith s.data ['/'] then s.data else '/' :: s.data := by
  unfold addLeadingSlash
  split_ifs <;> simp

theorem addLeadingSlash_head (s : String) : (addLeadingSlash s).data.head? = some '/' := by
  rw [addLeadingSlash_data]
  split_ifs with h
  · obtain ⟨b, hb⟩ := (startsWith_iff _ _).mp h
    simp [hb]
  · rfl

theorem addLeadingSlash_of_head (s : String) (h : s.data.head? = some '/') :
    addLeadingSlash s = s := by
  unfold addLeadingSlash
  rw [if_pos]
  cases hs : s.data with
  | nil => simp [hs] at h
  | cons c cs =>
    simp only [hs, List.head?_cons, Option.some.injEq] at h
    simp [startsWith, h]

theorem includes_addLeadingSlash (s : String) (h : includes s.data ['.', 'm', 'd', 'x'] = false) :
    includes (addLeadingSlash s).data ['.', 'm', 'd', 'x'] = false := by
  rw [addLeadingSlash_data]
  split_ifs
  · exact h
  · simp [includes, startsWith, h]

theorem addLeadingSlash_length (s : String) :
    (addLeadingSlash s).data.length ≤ s.data.length + 1 := by
  rw [addLeadingSlash_data]
  split_ifs <;> simp

theorem fileToPath_eq_self_of_not_includes (s : String)
    (hhead : s.data.head? = some '/') (h : includes s.data ['.', 'm', 'd', 'x'] = false) :
    fileToPath s = s := by
  unfold fileToPath
  rw [mdx_data, show "".data = [] from rfl, replaceFirst_of_not_includes _ _ _ h]
  exact addLeadingSlash_of_head s hhead

theorem fileToPath_ne_self_of_includes (s : String)
    (h : includes s.data ['.', 'm', 'd', 'x'] = true) : fileToPath s ≠ s := by
  intro heq
  have hlen := replaceFirst_length _ _ h
  have hle := addLeadingSlash_length (String.mk (replaceFirst ['.', 'm', 'd', 'x'] [] s.data))
  have : (fileToPath s).data.length = s.data.length := by rw [heq]
  unfold fileToPath at this
  rw [mdx_data, show "".data = [] from rfl] at this
  simp only [List.length_cons, List.length_nil] at hlen
  simp only at hle
  omega

theorem fileToPath_head (p : String) : (fileToPath p).data.head? = some '/' :=
  addLeadingSlash_head _

theorem fileToPath_of_suffix (q : String) (h : includes q.data ".mdx".data = false) :
    fileToPath (q ++ ".mdx") = addLeadingSlash q := by
  unfold fileToPath
  rw [mdx_data] at h
  rw [String.data_append, mdx_data, show "".data = [] from rfl, replaceFirst_mdx_append _ h]

theorem includes_fileToPath_of_suffix (q : String) (h : includes q.data ".mdx".data = false) :
    includes (fileToPath (q ++ ".mdx")).data ".mdx".data = false := by
  rw [fileToPath_of_suffix q h, mdx_data]
  rw [mdx_data] at h
  exact includes_addLeadingSlash q h

/-- C5 (amended). For every path `q ++ ".mdx"` in which `.mdx` occurs nowhere
before the trailing extension, `fileToPath` returns `q` itself when `q` starts
with a slash and `"/" ++ q` otherwise; the result starts with `/`, contains no
`.mdx` any more, and its second character is not `/` unless `q` starts with
two slashes. -/
theorem fileToPath_of_trailing_mdx (q : String) (h : includes q.data ".mdx".data = false) :
    fileToPath (q ++ ".mdx") = addLeadingSlash q
    ∧ addLeadingSlash q = (if startsWith q.data "/".data then q else "/" ++ q)
    ∧ (fileToPath (q ++ ".mdx")).data.head? = some '/'
    ∧ (startsWith q.data "//".data = false → (fileToPath (q ++ ".mdx")).data[1]? ≠ some '/')
    ∧ includes (fileToPath (q ++ ".mdx")).data ".mdx".data = false := by
  have h1 := fileToPath_of_suffix q h
  refine ⟨h1, rfl, fileToPath_head _, ?_, ?_⟩
  · intro hss
    rw [h1, addLeadingSlash_data]
    have hs2 : "//".data = ['/', '/'] := rfl
    rw [hs2] at hss
    cases hq : q.data with
    | nil => simp [startsWith]
    | cons c cs =>
      rw [hq] at hss
      by_cases hc : c = '/'
      · subst hc
        cases cs with
        | nil => simp [startsWith]
        | cons d ds =>
          have hd : d ≠ '/' := by
            intro hd
            subst hd
            simp [startsWith] at hss
          simp [startsWith, hd]
      · simp [startsWith, hc]
  · exact includes_fileToPath_of_suffix q h

/-- Witness for C5 at `docs/intro.mdx`. -/
theorem fileToPath_of_trailing_mdx_witness :
    includes "docs/intro".data ".mdx".data = false
    ∧ fileToPath ("docs/intro" ++ ".mdx") = "/docs/intro" :=
  ⟨by decide, (fileToPath_of_trailing_mdx "docs/intro" (by decide)).1.trans rfl⟩

/-- C5 fails as stated: an earlier `.mdx` is removed in place of the trailing
one, a doubled extension leaves a `.mdx` suffix, and a path that starts with two
slashes keeps both. -/
theorem fileToPath_of_trailing_mdx_counterexample :
    fileToPath "docs.mdx/intro.mdx" = "/docs/intro.mdx"
    ∧ fileToPath "a.mdx.mdx" = "/a.mdx"
    ∧ fileToPath "//a.mdx" = "//a" :=
  ⟨rfl, rfl, rfl⟩

/-- C6 (amended). Applying `fileToPath` twice gives the same string as applying
it once exactly when the slug `fileToPath p` contains no `.mdx`; this is the
case for every `p` that contains no `.mdx`, and for every `p` whose only `.mdx`
is its suffix. -/
theorem fileToPath_idempotent_iff (p : String) :
    (fileToPath (fileToPath p) = fileToPath p ↔ includes (fileToPath p).data ".mdx".data = false)
    ∧ (includes p.data ".mdx".data = false → fileToPath (fileToPath p) = fileToPath p)
    ∧ (∀ q : String, p = q ++ ".mdx" → includes q.data ".mdx".data = false →
        fileToPath (fileToPath p) = fileToPath p) := by
  have hiff : fileToPath (fileToPath p) = fileToPath p
      ↔ includes (fileToPath p).data ".mdx".data = false := by
    rw [mdx_data]
    constructor
    · intro heq
      by_contra hinc
      exact fileToPath_ne_self_of_includes _ (by simpa using hinc) heq
    · exact fileToPath_eq_self_of_not_includes _ (fileToPath_head p)
  refine ⟨hiff, ?_, ?_⟩
  · intro h
    apply hiff.mpr
    rw [mdx_data] at h ⊢
    unfold fileToPath
    rw [mdx_data, show "".data = [] from rfl, replaceFirst_of_not_includes _ _ _ h]
    exact includes_addLeadingSlash p h
  · rintro q rfl h
    exact hiff.mpr (includes_fileToPath_of_suffix q h)

/-- Witness for C6 at `docs/intro.mdx` and at `docs/intro`. -/
theorem fileToPath_idempotent_iff_witness :
    fileToPath (fileToPath "docs/intro.mdx") = fileToPath "docs/intro.mdx"
    ∧ fileToPath (fileToPath "docs/intro") = fileToPath "docs/intro" :=
  ⟨(fileToPath_idempotent_iff "docs/intro.mdx").2.2 "docs/intro" rfl (by decide),
    (fileToPath_idempotent_iff "docs/intro").2.1 (by decide)⟩

/-- C6 fails as stated: for `a.mdx.mdx` a second application strips the
extension that the first one left. -/
theorem fileToPath_idempotent_iff_counterexample :
    fileToPath "a.mdx.mdx" = "/a.mdx" ∧ fileToPath (fileToPath "a.mdx.mdx") = "/a"
    ∧ fileToPath (fileToPath "a.mdx.mdx") ≠ fileToPath "a.mdx.mdx" :=
  ⟨rfl, rfl, by decide⟩


/-! ## The lookups and the enricher -/

theorem getProp_ok_of_ok (v : JSVal) (k k2 : String) (x : JSVal) (h : v.getProp k = .ok x) :
    ∃ y, v.getProp k2 = .ok y := by
  cases v <;> simp [JSVal.getProp] at h ⊢

theorem andThen_ok {α β : Type} (a : α) (cs : List Call) (f : α → Run β) :
    Run.andThen ⟨.ok a, cs⟩ f = ⟨(f a).result, cs ++ (f a).calls⟩ := rfl

theorem andThen_error {α β : Type} (e : JSError) (cs : List Call) (f : α → Run β) :
    Run.andThen (⟨.error e, cs⟩ : Run α) f = ⟨.error e, cs⟩ := rfl

theorem tryCatch_ok {α : Type} (a : α) (cs : List Call) (h : JSError → Run α) :
    tryCatch ⟨.ok a, cs⟩ h = ⟨.ok a, cs⟩ := rfl

theorem tryCatch_error {α : Type} (e : JSError) (cs : List Call) (h : JSError → Run α) :
    tryCatch (⟨.error e, cs⟩ : Run α) h = ⟨(h e).result, cs ++ (h e).calls⟩ := rfl

theorem getLastEdited_of_stdout (w : World) (filePath stdout : String)
    (h : w.execa "git" (gitLogArgs filePath) = .ok stdout) :
    getLastEdited w filePath =
      ⟨.ok (match getTimestampAndAuthor w.timezoneOffset stdout with
            | .ok v => v
            | .error _ => .undefined),
       [Call.execa "git" (gitLogArgs filePath)]⟩ := by
  simp only [getLastEdited, bind, execaStdout, h, andThen_ok, Run.ofExcept, pure, Run.ret]
  cases getTimestampAndAuthor w.timezoneOffset stdout with
  | error e => simp [tryCatch_error]
  | ok v => simp [tryCatch_ok]

theorem getLastEdited_of_rejected (w : World) (filePath : String) (e : JSError)
    (h : w.execa "git" (gitLogArgs filePath) = .error e) :
    getLastEdited w filePath = ⟨.ok .undefined, [Call.execa "git" (gitLogArgs filePath)]⟩ := by
  simp [getLastEdited, bind, execaStdout, h, andThen_error, tryCatch_error, pure, Run.ret]

theorem getLastEdited_run (w : World) (filePath : String) :
    ∃ v, getLastEdited w filePath = ⟨.ok v, [Call.execa "git" (gitLogArgs filePath)]⟩ := by
  cases hx : w.execa "git" (gitLogArgs filePath) with
  | error e => exact ⟨_, getLastEdited_of_rejected w filePath e hx⟩
  | ok stdout => exact ⟨_, getLastEdited_of_stdout w filePath stdout hx⟩

theorem getLastEdited_congr (w : World) (g : JSVal → Except JSError JSVal) (filePath : String) :
    getLastEdited { w with getByUsername := g } filePath = getLastEdited w filePath := rfl

theorem getUserData_of_rejected (w : World) (u : JSVal) (e : JSError)
    (h : w.getByUsername u = .error e) :
    getUserData w u = ⟨.ok .undefined, [Call.getByUsername u]⟩ := by
  simp [getUserData, bind, octokitGetByUsername, h, andThen_error, tryCatch_error, pure,
    Run.ret]

theorem getUserData_of_no_data (w : World) (u resp : JSVal) (e : JSError)
    (h : w.getByUsername u = .ok resp) (hd : resp.getProp "data" = .error e) :
    getUserData w u = ⟨.ok .undefined, [Call.getByUsername u]⟩ := by
  simp [getUserData, bind, octokitGetByUsername, h, hd, andThen_ok, andThen_error,
    tryCatch_error, pure, Run.ret, Run.ofExcept]

theorem getUserData_of_bad_data (w : World) (u resp data : JSVal) (e : JSError)
    (h : w.getByUsername u = .ok resp) (hd : resp.getProp "data" = .ok data)
    (h1 : data.getProp "avatar_url" = .error e) :
    getUserData w u = ⟨.ok .undefined, [Call.getByUsername u]⟩ := by
  simp [getUserData, bind, octokitGetByUsername, h, hd, h1, andThen_ok, andThen_error,
    tryCatch_error, pure, Run.ret, Run.ofExcept]

theorem getUserData_of_fields (w : World) (u resp data v1 v2 v3 v4 v5 v6 : JSVal)
    (h : w.getByUsername u = .ok resp) (hd : resp.getProp "data" = .ok data)
    (h1 : data.getProp "avatar_url" = .ok v1) (h2 : data.getProp "html_url" = .ok v2)
    (h3 : data.getProp "blog" = .ok v3) (h4 : data.getProp "bio" = .ok v4)
    (h5 : data.getProp "name" = .ok v5) (h6 : data.getProp "twitter_username" = .ok v6) :
    getUserData w u =
      ⟨.ok (.obj [("login", u), ("avatarUrl", v1), ("githubUrl", v2), ("websiteUrl", v3),
        ("bio", v4), ("name", v5), ("twitterUsername", v6)]), [Call.getByUsername u]⟩ := by
  simp [getUserData, bind, octokitGetByUsername, h, hd, h1, h2, h3, h4, h5, h6, andThen_ok,
    tryCatch_ok, pure, Run.ret, Run.ofExcept]

theorem getUserData_run (w : World) (u : JSVal) :
    ∃ v, getUserData w u = ⟨.ok v, [Call.getByUsername u]⟩ := by
  cases hx : w.getByUsername u with
  | error e => exact ⟨_, getUserData_of_rejected w u e hx⟩
  | ok resp =>
    cases hd : resp.getProp "data" with
    | error e => exact ⟨_, getUserData_of_no_data w u resp e hx hd⟩
    | ok data =>
      cases h1 : data.getProp "avatar_url" with
      | error e => exact ⟨_, getUserData_of_bad_data w u resp data e hx hd h1⟩
      | ok v1 =>
        obtain ⟨v2, h2⟩ := getProp_ok_of_ok data _ "html_url" _ h1
        obtain ⟨v3, h3⟩ := getProp_ok_of_ok data _ "blog" _ h1
        obtain ⟨v4, h4⟩ := getProp_ok_of_ok data _ "bio" _ h1
        obtain ⟨v5, h5⟩ := getProp_ok_of_ok data _ "name" _ h1
        obtain ⟨v6, h6⟩ := getProp_ok_of_ok data _ "twitter_username" _ h1
        exact ⟨_, getUserData_of_fields w u resp data v1 v2 v3 v4 v5 v6 hx hd h1 h2 h3 h4 h5 h6⟩

/-- The enricher on a record whose `__resourcePath` is a string: it returns, and
the only calls it makes are the `git` call and, for a truthy `author`, the
profile request. -/
theorem process_run (lib : Lib) (w : World) (fm : JSVal) (p : String) (a t : JSVal)
    (hp : fm.getProp "__resourcePath" = .ok (.str p)) (ha : fm.getProp "author" = .ok a)
    (ht : fm.getProp "tags" = .ok t) :
    ∃ le, getLastEdited w (lib.pathJoin [w.cwd, "pages", p])
        = ⟨.ok le, [Call.execa "git" (gitLogArgs (lib.pathJoin [w.cwd, "pages", p]))]⟩ ∧
      ((a.truthy = false ∧ process lib w fm =
          ⟨.ok { slug := .str (fileToPath p), lastEdited := le,
                 editUrl := getEditUrl lib p EDIT_URL, author := .undefined, tags := t },
           [Call.execa "git" (gitLogArgs (lib.pathJoin [w.cwd, "pages", p]))]⟩)
       ∨ (a.truthy = true ∧ ∃ au, getUserData w a = ⟨.ok au, [Call.getByUsername a]⟩ ∧
          process lib w fm =
          ⟨.ok { slug := .str (fileToPath p), lastEdited := le,
                 editUrl := getEditUrl lib p EDIT_URL, author := au, tags := t },
           [Call.execa "git" (gitLogArgs (lib.pathJoin [w.cwd, "pages", p])),
            Call.getByUsername a]⟩)) := by
  obtain ⟨le, hle⟩ := getLastEdited_run w (lib.pathJoin [w.cwd, "pages", p])
  refine ⟨le, hle, ?_⟩
  cases htr : a.truthy with
  | false =>
    left
    refine ⟨rfl, ?_⟩
    simp [process, bind, andThen_ok, Run.ofExcept, pure, Run.ret, hp, ha, ht, validateString, hle,
      htr]
  | true =>
    right
    obtain ⟨au, hau⟩ := getUserData_run w a
    refine ⟨rfl, au, hau, ?_⟩
    simp [process, bind, andThen_ok, Run.ofExcept, pure, Run.ret, hp, ha, ht, validateString, hle,
      htr, hau]

/-- C9. For every username: when the request resolves with response data `d`,
`getUserData` returns the record of exactly the seven keys `login` (the queried
username), `avatarUrl`, `githubUrl`, `websiteUrl`, `bio`, `name` and
`twitterUsername`, read from `avatar_url`, `html_url`, `blog`, `bio`, `name` and
`twitter_username` of `d`; when the request rejects it returns `undefined`; and
it never throws. -/
theorem getUserData_spec (w : World) (u : JSVal) :
    (∀ (resp : JSVal) (d : List (String × JSVal)), w.getByUsername u = .ok resp →
        resp.getProp "data" = .ok (.obj d) →
        getUserData w u =
          ⟨.ok (.obj [("login", u),
            ("avatarUrl", (d.lookup "avatar_url").getD .undefined),
            ("githubUrl", (d.lookup "html_url").getD .undefined),
            ("websiteUrl", (d.lookup "blog").getD .undefined),
            ("bio", (d.lookup "bio").getD .undefined),
            ("name", (d.lookup "name").getD .undefined),
            ("twitterUsername", (d.lookup "twitter_username").getD .undefined)]),
           [Call.getByUsername u]⟩)
    ∧ (∀ e, w.getByUsername u = .error e →
        getUserData w u = ⟨.ok .undefined, [Call.getByUsername u]⟩)
    ∧ ∃ v, (getUserData w u).result = .ok v := by
  refine ⟨?_, ?_, ?_⟩
  · intro resp d h hd
    exact getUserData_of_fields w u resp (.obj d) _ _ _ _ _ _ h hd rfl rfl rfl rfl rfl rfl
  · intro e h
    exact getUserData_of_rejected w u e h
  · obtain ⟨v, hv⟩ := getUserData_run w u
    exact ⟨v, by rw [hv]⟩

/-- Witness for C9: a response that carries more fields than the six, queried
under a differently spelled username, and a rejected request. -/
theorem getUserData_spec_witness :
    getUserData onlineWorld (.str "JANE") =
        ⟨.ok (.obj [("login", .str "JANE"),
          ("avatarUrl", .str "https://avatars.example/u/42"),
          ("githubUrl", .str "https://github.com/jane"),
          ("websiteUrl", .str ""), ("bio", .null), ("name", .str "Jane Doe"),
          ("twitterUsername", .null)]),
         [Call.getByUsername (.str "JANE")]⟩
    ∧ getUserData offlineWorld (.str "JANE")
        = ⟨.ok .undefined, [Call.getByUsername (.str "JANE")]⟩ :=
  ⟨(getUserData_spec onlineWorld (.str "JANE")).1 _ sampleProfile rfl rfl,
    (getUserData_spec offlineWorld (.str "JANE")).2.1 _ rfl⟩

/-- What `getLastEdited` returned is what the enricher stores as `lastEdited`. -/
theorem process_lastEdited (lib : Lib) (w : World) (fm : JSVal) (p : String) (v : JSVal)
    (hp : fm.getProp "__resourcePath" = .ok (.str p))
    (hle : getLastEdited w (lib.pathJoin [w.cwd, "pages", p])
      = ⟨.ok v, [Call.execa "git" (gitLogArgs (lib.pathJoin [w.cwd, "pages", p]))]⟩) :
    ∃ r, (process lib w fm).result = .ok r ∧ r.lastEdited = v := by
  obtain ⟨a, ha⟩ := getProp_ok_of_ok fm _ "author" _ hp
  obtain ⟨t, ht⟩ := getProp_ok_of_ok fm _ "tags" _ hp
  obtain ⟨le, hle2, hcase⟩ := process_run lib w fm p a t hp ha ht
  have hleq : le = v := by
    rw [hle] at hle2
    injection hle2 with h1 _
    injection h1 with h1
    exact h1.symm
  rcases hcase with ⟨_, hproc⟩ | ⟨_, au, _, hproc⟩
  · rw [hproc]; exact ⟨_, rfl, hleq⟩
  · rw [hproc]; exact ⟨_, rfl, hleq⟩

/-- C2 (amended). When the `git` invocation itself fails, that is, `execa`
rejects (non-zero exit, missing binary), `getLastEdited` returns `undefined`
after the one `git` call and the enriched record's `lastEdited` is `undefined`.
When `git` runs and prints nothing (a file without history, such as an
untracked file), `getLastEdited` returns `null` and `lastEdited` is `null`. -/
theorem getLastEdited_of_failure (w : World) (filePath : String) :
    (∀ e : JSError, w.execa "git" (gitLogArgs filePath) = .error e →
      getLastEdited w filePath = ⟨.ok .undefined, [Call.execa "git" (gitLogArgs filePath)]⟩
      ∧ ∀ (lib : Lib) (fm : JSVal) (p : String), fm.getProp "__resourcePath" = .ok (.str p) →
          lib.pathJoin [w.cwd, "pages", p] = filePath →
          ∃ r, (process lib w fm).result = .ok r ∧ r.lastEdited = .undefined)
    ∧ (w.execa "git" (gitLogArgs filePath) = .ok "" →
      getLastEdited w filePath = ⟨.ok .null, [Call.execa "git" (gitLogArgs filePath)]⟩
      ∧ ∀ (lib : Lib) (fm : JSVal) (p : String), fm.getProp "__resourcePath" = .ok (.str p) →
          lib.pathJoin [w.cwd, "pages", p] = filePath →
          ∃ r, (process lib w fm).result = .ok r ∧ r.lastEdited = .null) := by
  constructor
  · intro e h
    have hle := getLastEdited_of_rejected w filePath e h
    refine ⟨hle, ?_⟩
    rintro lib fm p hp rfl
    exact process_lastEdited lib w fm p _ hp hle
  · intro h
    have hle : getLastEdited w filePath
        = ⟨.ok .null, [Call.execa "git" (gitLogArgs filePath)]⟩ := by
      rw [getLastEdited_of_stdout w filePath "" h]
      rfl
    refine ⟨hle, ?_⟩
    rintro lib fm p hp rfl
    exact process_lastEdited lib w fm p _ hp hle

/-- Witness for C2: a host without `git`, and a file that `git` does not
track. -/
theorem getLastEdited_of_failure_witness :
    (getLastEdited offlineWorld "/site/pages/docs/intro.mdx"
        = ⟨.ok .undefined, [Call.execa "git" (gitLogArgs "/site/pages/docs/intro.mdx")]⟩
      ∧ ∃ r, (process slashLib offlineWorld sampleFrontMatter).result = .ok r
          ∧ r.lastEdited = .undefined)
    ∧ (getLastEdited untrackedWorld "/site/pages/docs/intro.mdx"
        = ⟨.ok .null, [Call.execa "git" (gitLogArgs "/site/pages/docs/intro.mdx")]⟩
      ∧ ∃ r, (process slashLib untrackedWorld sampleFrontMatter).result = .ok r
          ∧ r.lastEdited = .null) :=
  ⟨⟨((getLastEdited_of_failure offlineWorld "/site/pages/docs/intro.mdx").1 _ rfl).1,
      ((getLastEdited_of_failure offlineWorld "/site/pages/docs/intro.mdx").1 _ rfl).2
        slashLib sampleFrontMatter "docs/intro.mdx" rfl rfl⟩,
    ⟨((getLastEdited_of_failure untrackedWorld "/site/pages/docs/intro.mdx").2 rfl).1,
      ((getLastEdited_of_failure untrackedWorld "/site/pages/docs/intro.mdx").2 rfl).2
        slashLib sampleFrontMatter "docs/intro.mdx" rfl rfl⟩⟩

/-- C2 fails as stated: when `git` cannot be run, `getLastEdited` returns
`undefined`, which is not `null`. -/
theorem getLastEdited_of_failure_counterexample :
    (getLastEdited offlineWorld "/site/pages/docs/intro.mdx").result = .ok .undefined
    ∧ (getLastEdited offlineWorld "/site/pages/docs/intro.mdx").result ≠ .ok .null :=
  ⟨rfl, by intro h; cases h⟩

/-- C7. On a record whose `__resourcePath` is a string: without an `author` key,
or with the empty string as `author`, the enricher makes no profile request
(its only call is the `git` call) and the record's `author` is `undefined`;
with a non-empty string as `author` it makes exactly one profile request, for
that string, after the `git` call, and stores what `getUserData` returned. -/
theorem process_profile_lookups (lib : Lib) (w : World) (fields : List (String × JSVal))
    (p : String) (hp : fields.lookup "__resourcePath" = some (.str p)) :
    ((fields.lookup "author" = none ∨ fields.lookup "author" = some (.str "")) →
      ∃ r, process lib w (.obj fields)
          = ⟨.ok r, [Call.execa "git" (gitLogArgs (lib.pathJoin [w.cwd, "pages", p]))]⟩
        ∧ r.author = .undefined)
    ∧ (∀ a : String, a ≠ "" → fields.lookup "author" = some (.str a) →
      ∃ r v, getUserData w (.str a) = ⟨.ok v, [Call.getByUsername (.str a)]⟩
        ∧ process lib w (.obj fields)
          = ⟨.ok r, [Call.execa "git" (gitLogArgs (lib.pathJoin [w.cwd, "pages", p])),
                     Call.getByUsername (.str a)]⟩
        ∧ r.author = v) := by
  have hp2 : (JSVal.obj fields).getProp "__resourcePath" = .ok (.str p) := by
    simp [JSVal.getProp, hp]
  constructor
  · intro hauthor
    obtain ⟨a, ha, hfalsy⟩ : ∃ a, (JSVal.obj fields).getProp "author" = .ok a
        ∧ a.truthy = false := by
      rcases hauthor with h | h
      · exact ⟨.undefined, by simp [JSVal.getProp, h], rfl⟩
      · exact ⟨.str "", by simp [JSVal.getProp, h], rfl⟩
    obtain ⟨le, _, hcase⟩ := process_run lib w (.obj fields) p a _ hp2 ha rfl
    rcases hcase with ⟨_, hproc⟩ | ⟨htrue, _⟩
    · exact ⟨_, hproc, rfl⟩
    · rw [hfalsy] at htrue; cases htrue
  · intro a hne ha
    have ha2 : (JSVal.obj fields).getProp "author" = .ok (.str a) := by
      simp [JSVal.getProp, ha]
    obtain ⟨le, _, hcase⟩ := process_run lib w (.obj fields) p (.str a) _ hp2 ha2 rfl
    rcases hcase with ⟨hfalse, _⟩ | ⟨_, au, hau, hproc⟩
    · simp [JSVal.truthy, hne] at hfalse
    · exact ⟨_, au, hau, hproc, rfl⟩

/-- Witness for C7: a page without an author and a page with one. -/
theorem process_profile_lookups_witness :
    (∃ r, process slashLib onlineWorld anonymousFrontMatter
          = ⟨.ok r, [Call.execa "git" (gitLogArgs "/site/pages/docs/intro.mdx")]⟩
        ∧ r.author = .undefined)
    ∧ ∃ r v, getUserData onlineWorld (.str "JANE") = ⟨.ok v, [Call.getByUsername (.str "JANE")]⟩
        ∧ process slashLib onlineWorld sampleFrontMatter
          = ⟨.ok r, [Call.execa "git" (gitLogArgs "/site/pages/docs/intro.mdx"),
                     Call.getByUsername (.str "JANE")]⟩
        ∧ r.author = v :=
  ⟨(process_profile_lookups slashLib onlineWorld anonymousFields "docs/intro.mdx" rfl).1
      (Or.inl rfl),
    (process_profile_lookups slashLib onlineWorld sampleFields "docs/intro.mdx" rfl).2 "JANE"
      (by decide) rfl⟩

/-- C8. On two records with the same string `__resourcePath`, in any two builds,
the enricher returns records with the same `editUrl`, a string: the fixed base
URL joined with the path. -/
theorem process_editUrl (lib : Lib) (w1 w2 : World) (fm1 fm2 : JSVal) (p : String)
    (h1 : fm1.getProp "__resourcePath" = .ok (.str p))
    (h2 : fm2.getProp "__resourcePath" = .ok (.str p)) :
    ∃ r1 r2, (process lib w1 fm1).result = .ok r1 ∧ (process lib w2 fm2).result = .ok r2
      ∧ r1.editUrl = r2.editUrl
      ∧ r1.editUrl = .str (lib.normalizeUrl [EDIT_URL, lib.posixPath p]) := by
  obtain ⟨a1, ha1⟩ := getProp_ok_of_ok fm1 _ "author" _ h1
  obtain ⟨t1, ht1⟩ := getProp_ok_of_ok fm1 _ "tags" _ h1
  obtain ⟨a2, ha2⟩ := getProp_ok_of_ok fm2 _ "author" _ h2
  obtain ⟨t2, ht2⟩ := getProp_ok_of_ok fm2 _ "tags" _ h2
  obtain ⟨le1, _, hc1⟩ := process_run lib w1 fm1 p a1 t1 h1 ha1 ht1
  obtain ⟨le2, _, hc2⟩ := process_run lib w2 fm2 p a2 t2 h2 ha2 ht2
  have hurl : getEditUrl lib p EDIT_URL = .str (lib.normalizeUrl [EDIT_URL, lib.posixPath p]) := by
    unfold getEditUrl
    rw [if_pos (by decide)]
  rcases hc1 with ⟨_, hp1⟩ | ⟨_, au1, _, hp1⟩ <;> rcases hc2 with ⟨_, hp2⟩ | ⟨_, au2, _, hp2⟩ <;>
    (rw [hp1, hp2]; exact ⟨_, _, rfl, rfl, rfl, hurl⟩)

/-- Witness for C8: the same page in a build where both lookups succeed and in
one where both fail, with and without an author. -/
theorem process_editUrl_witness :
    ∃ r1 r2, (process slashLib onlineWorld sampleFrontMatter).result = .ok r1
      ∧ (process slashLib offlineWorld anonymousFrontMatter).result = .ok r2
      ∧ r1.editUrl = r2.editUrl
      ∧ r1.editUrl = .str (slashLib.normalizeUrl [EDIT_URL, slashLib.posixPath "docs/intro.mdx"]) :=
  process_editUrl slashLib onlineWorld offlineWorld sampleFrontMatter anonymousFrontMatter
    "docs/intro.mdx" rfl rfl

/-- C1. On every record whose `__resourcePath` is a string, whatever the `git`
invocation and the profile request do, the enricher returns a record and does
not throw; and when the profile request rejects, the record's `author` is
`undefined` while `slug`, `editUrl`, `lastEdited` and `tags` are what they are
in the same build with any other outcome of the profile request. -/
theorem process_never_throws (lib : Lib) (w : World) (g : JSVal → Except JSError JSVal)
    (fm : JSVal) (p : String) (hp : fm.getProp "__resourcePath" = .ok (.str p)) :
    ∃ r r2, (process lib w fm).result = .ok r
      ∧ (process lib { w with getByUsername := g } fm).result = .ok r2
      ∧ r.slug = r2.slug ∧ r.editUrl = r2.editUrl ∧ r.lastEdited = r2.lastEdited
      ∧ r.tags = r2.tags
      ∧ ((∀ a, fm.getProp "author" = .ok a → ∃ e, w.getByUsername a = .error e) →
          r.author = .undefined) := by
  obtain ⟨a, ha⟩ := getProp_ok_of_ok fm _ "author" _ hp
  obtain ⟨t, ht⟩ := getProp_ok_of_ok fm _ "tags" _ hp
  obtain ⟨le, hle, hc⟩ := process_run lib w fm p a t hp ha ht
  obtain ⟨le2, hle2, hc2⟩ := process_run lib { w with getByUsername := g } fm p a t hp ha ht
  have hleq : le = le2 := by
    rw [getLastEdited_congr] at hle2
    rw [hle] at hle2
    injection hle2 with h1 _
    injection h1
  subst hleq
  rcases hc with ⟨hf, hp1⟩ | ⟨_, au1, hau1, hp1⟩ <;>
    rcases hc2 with ⟨hf2, hp2⟩ | ⟨_, au2, _, hp2⟩
  · rw [hp1, hp2]; exact ⟨_, _, rfl, rfl, rfl, rfl, rfl, rfl, fun _ => rfl⟩
  · rw [hp1, hp2]; exact ⟨_, _, rfl, rfl, rfl, rfl, rfl, rfl, fun _ => rfl⟩
  · rw [hp1, hp2]
    refine ⟨_, _, rfl, rfl, rfl, rfl, rfl, rfl, ?_⟩
    intro hrej
    obtain ⟨e, he⟩ := hrej a ha
    rw [getUserData_of_rejected w a e he] at hau1
    injection hau1 with h1 _
    injection h1 with h1
    exact h1.symm
  · rw [hp1, hp2]
    refine ⟨_, _, rfl, rfl, rfl, rfl, rfl, rfl, ?_⟩
    intro hrej
    obtain ⟨e, he⟩ := hrej a ha
    rw [getUserData_of_rejected w a e he] at hau1
    injection hau1 with h1 _
    injection h1 with h1
    exact h1.symm

/-- Witness for C1: a page with an author, built while `git` is missing and the
profile request rejects, against the same build with the request succeeding. -/
theorem process_never_throws_witness :
    ∃ r r2, (process slashLib offlineWorld sampleFrontMatter).result = .ok r
      ∧ (process slashLib
          { offlineWorld with getByUsername := onlineWorld.getByUsername }
          sampleFrontMatter).result = .ok r2
      ∧ r.slug = r2.slug ∧ r.editUrl = r2.editUrl ∧ r.lastEdited = r2.lastEdited
      ∧ r.tags = r2.tags ∧ r.author = .undefined := by
  obtain ⟨r, r2, h1, h2, h3, h4, h5, h6, h7⟩ :=
    process_never_throws slashLib offlineWorld onlineWorld.getByUsername sampleFrontMatter
      "docs/intro.mdx" rfl
  exact ⟨r, r2, h1, h2, h3, h4, h5, h6, h7 (fun a _ => ⟨_, rfl⟩)⟩

end NextConfig
